import Mathlib

/-
Verification of the tick-queue library (src/src/lib.rs): an ordered buffer of
(tick, item) pairs with a continuity-checked append and front-only consumption.
The Rust `Queue<T>` holds a `VecDeque<ItemInfo<T>>` (modelled as a `List`, front
at the head) together with `expected_write_id`, the tick the next pushed item
must carry.  Every public operation is embedded below; mutation is modelled by
returning the new queue (paired with the returned value where the Rust method
returns one).
-/

namespace TickQueue

/-- Modelled from the spec: the tick identifier type `TickId` comes from the
external `tick_id` crate, which is not part of this repository.  The spec
treats it as an opaque totally ordered counter supporting equality, ordering,
a successor operation and a zero default; we model it as `Nat`, with the
successor written `+ 1`. -/
abbrev TickId := Nat

/-- Embeds `ItemInfo<T>` (lib.rs lines 43-47): a stored item together with the
tick it was pushed at. -/
structure ItemInfo (T : Type) where
  item : T
  tick_id : TickId
  deriving DecidableEq, Repr

/-- Embeds `Queue<T>` (lib.rs lines 55-59): the deque of stored items (front at
the list head) and the next tick id expected by `push`. -/
structure Queue (T : Type) where
  items : List (ItemInfo T)
  expected_write_id : TickId
  deriving DecidableEq, Repr

/-- Embeds `QueueError` (lib.rs lines 119-125). -/
inductive QueueError where
  | WrongTickId (expected : TickId) (encountered : TickId)
  deriving DecidableEq, Repr

/-- Embeds `Queue::new` (lib.rs lines 129-134). -/
def Queue.new {T : Type} (tick_id : TickId) : Queue T :=
  ⟨[], tick_id⟩

/-- Embeds `Default for Queue<T>` (lib.rs lines 61-68): default items and the
default tick id (zero). -/
def Queue.defaultQueue (T : Type) : Queue T :=
  ⟨[], 0⟩

/-- Embeds `Queue::clear` (lib.rs lines 137-140). -/
def Queue.clear {T : Type} (_q : Queue T) (initial_tick_id : TickId) : Queue T :=
  ⟨[], initial_tick_id⟩

/-- Embeds `Queue::push_internal` (lib.rs lines 172-179): append an entry
carrying `expected_write_id` at the back, then increment `expected_write_id`. -/
def Queue.push_internal {T : Type} (q : Queue T) (item : T) : Queue T :=
  ⟨q.items ++ [⟨item, q.expected_write_id⟩], q.expected_write_id + 1⟩

/-- Embeds `Queue::push` (lib.rs lines 159-170): reject with `WrongTickId`
when the supplied tick differs from `expected_write_id` (leaving the queue
unchanged), otherwise delegate to `push_internal`. -/
def Queue.push {T : Type} (q : Queue T) (tick_id : TickId) (item : T) :
    Except QueueError Unit × Queue T :=
  if q.expected_write_id ≠ tick_id then
    (Except.error (QueueError.WrongTickId q.expected_write_id tick_id), q)
  else
    (Except.ok (), q.push_internal item)

/-- Embeds `Queue::pop` (lib.rs lines 187-189): `VecDeque::pop_front`. -/
def Queue.pop {T : Type} (q : Queue T) : Option (ItemInfo T) × Queue T :=
  match q.items with
  | [] => (none, q)
  | x :: rest => (some x, ⟨rest, q.expected_write_id⟩)

/-- Embeds the loop body of `Queue::discard_up_to` (lib.rs lines 191-199):
pop front entries while their tick is strictly below `tick_id`, stopping at
the first entry with tick `≥ tick_id` or when empty. -/
def discardUpToList {T : Type} (l : List (ItemInfo T)) (tick_id : TickId) :
    List (ItemInfo T) :=
  match l with
  | [] => []
  | x :: rest =>
    if x.tick_id ≥ tick_id then x :: rest
    else discardUpToList rest tick_id

/-- Embeds `Queue::discard_up_to` (lib.rs lines 191-199). -/
def Queue.discard_up_to {T : Type} (q : Queue T) (tick_id : TickId) : Queue T :=
  ⟨discardUpToList q.items tick_id, q.expected_write_id⟩

/-- Embeds `Queue::discard_count` (lib.rs lines 201-207): clear everything when
`count` reaches the length, otherwise drain the first `count` entries. -/
def Queue.discard_count {T : Type} (q : Queue T) (count : Nat) : Queue T :=
  if count ≥ q.items.length then ⟨[], q.expected_write_id⟩
  else ⟨q.items.drop count, q.expected_write_id⟩

/-- Embeds `Queue::front_tick_id` (lib.rs lines 248-250). -/
def Queue.front_tick_id {T : Type} (q : Queue T) : Option TickId :=
  q.items.head?.map (fun info => info.tick_id)

/-- Embeds `Queue::back_tick_id` (lib.rs lines 258-260). -/
def Queue.back_tick_id {T : Type} (q : Queue T) : Option TickId :=
  q.items.getLast?.map (fun info => info.tick_id)

/-- Embeds `Queue::take` (lib.rs lines 235-245): when the queue is non-empty,
drain `min count len` front entries, returning the front tick (read before the
drain) together with the drained plain values. -/
def Queue.take {T : Type} (q : Queue T) (count : Nat) :
    Option (TickId × List T) × Queue T :=
  match q.front_tick_id with
  | none => (none, q)
  | some first_tick_id =>
    ((some (first_tick_id,
        (q.items.take (min count q.items.length)).map (fun info => info.item))),
     ⟨q.items.drop (min count q.items.length), q.expected_write_id⟩)

/-- Embeds `Queue::len` (lib.rs lines 263-265). -/
def Queue.len {T : Type} (q : Queue T) : Nat :=
  q.items.length

/-- Embeds `Queue::is_empty` (lib.rs lines 268-270). -/
def Queue.is_empty {T : Type} (q : Queue T) : Bool :=
  q.items.isEmpty

/-- Embeds `Queue::debug_get` (lib.rs lines 182-184). -/
def Queue.debug_get {T : Type} (q : Queue T) (index : Nat) : Option (ItemInfo T) :=
  q.items[index]?

/-- Embeds `FromIndexIterator` (lib.rs lines 89-94): a borrowed view of the
deque with the starting and current positional indices. -/
structure FromIndexIterator (T : Type) where
  deque : List (ItemInfo T)
  start_index : Nat
  current_index : Nat
  deriving DecidableEq, Repr

/-- Embeds `FromIndexIterator::new` (lib.rs lines 96-105). -/
def FromIndexIterator.new {T : Type} (deque : List (ItemInfo T)) (start_index : Nat) :
    FromIndexIterator T :=
  ⟨deque, start_index, start_index⟩

/-- Embeds `FromIndexIterator::next` (lib.rs lines 107-115): read the entry at
`current_index` (yield nothing when out of range) and advance the index. -/
def FromIndexIterator.next {T : Type} (it : FromIndexIterator T) :
    Option (ItemInfo T) × FromIndexIterator T :=
  match it.deque[it.current_index]? with
  | none => (none, it)
  | some x => (some x, ⟨it.deque, it.start_index, it.current_index + 1⟩)

/-- Embeds `Queue::iter_index` (lib.rs lines 283-285). -/
def Queue.iter_index {T : Type} (q : Queue T) (start_index : Nat) :
    FromIndexIterator T :=
  FromIndexIterator.new q.items start_index

/-- Runs the iterator through `next` at most `fuel` times, collecting the
yielded entries in order (fuel-indexed unfolding of the Rust `for` loop). -/
def FromIndexIterator.collectFuel {T : Type} :
    Nat → FromIndexIterator T → List (ItemInfo T)
  | 0, _ => []
  | fuel + 1, it =>
    match it.next with
    | (none, _) => []
    | (some x, it2) => x :: FromIndexIterator.collectFuel fuel it2

/-- The full sequence an iterator yields: enough fuel to reach the end of the
deque, after which `next` always yields nothing. -/
def FromIndexIterator.collect {T : Type} (it : FromIndexIterator T) :
    List (ItemInfo T) :=
  FromIndexIterator.collectFuel (it.deque.length - it.current_index) it

/-- Iterated `pop`: pops `count` times (stopping early on an empty queue),
collecting the popped entries in order; used to state take/pop equivalence. -/
def Queue.popN {T : Type} : Nat → Queue T → List (ItemInfo T) × Queue T
  | 0, q => ([], q)
  | count + 1, q =>
    match q.pop with
    | (none, q2) => ([], q2)
    | (some x, q2) =>
      let rest := Queue.popN count q2
      (x :: rest.1, rest.2)

/-- States that every queue state reachable from `new`/default construction by
the public operations satisfies: each stored entry's tick, plus its distance
to the end of the buffer, equals `expected_write_id`.  This single arithmetic
fact packages continuity (consecutive ticks differ by 1) and the
`expected_write_id = back tick + 1` law. -/
def Inv {T : Type} (q : Queue T) : Prop :=
  ∀ i a, q.items[i]? = some a →
    a.tick_id + (q.items.length - i) = q.expected_write_id

/-- The states reachable from construction by any sequence of public
operations (lib.rs lines 127-286). -/
inductive Reachable {T : Type} : Queue T → Prop where
  | new (t : TickId) : Reachable (Queue.new t)
  | defaultQueue : Reachable (Queue.defaultQueue T)
  | push (t : TickId) (v : T) {q : Queue T} :
      Reachable q → Reachable (q.push t v).2
  | pop {q : Queue T} : Reachable q → Reachable q.pop.2
  | take (n : Nat) {q : Queue T} : Reachable q → Reachable (q.take n).2
  | discard_up_to (t : TickId) {q : Queue T} :
      Reachable q → Reachable (q.discard_up_to t)
  | discard_count (n : Nat) {q : Queue T} :
      Reachable q → Reachable (q.discard_count n)
  | clear (t : TickId) {q : Queue T} : Reachable q → Reachable (q.clear t)

/-- Concrete queue used by the witnesses: three pushes at ticks 0, 1, 2. -/
def q3 : Queue Nat :=
  ((((Queue.new 0).push 0 10).2.push 1 20).2.push 2 30).2

lemma q3_reachable : Reachable q3 :=
  Reachable.push 2 30 (Reachable.push 1 20 (Reachable.push 0 10 (Reachable.new 0)))

lemma inv_nil {T : Type} (e : TickId) : Inv (⟨[], e⟩ : Queue T) := by
  intro i a h
  simp at h

lemma inv_drop {T : Type} {l : List (ItemInfo T)} {e : TickId} (k : Nat)
    (h : Inv (⟨l, e⟩ : Queue T)) : Inv (⟨l.drop k, e⟩ : Queue T) := by
  intro i a ha
  show a.tick_id + ((l.drop k).length - i) = e
  have ha' : (l.drop k)[i]? = some a := ha
  rw [List.getElem?_drop] at ha'
  have hk : a.tick_id + (l.length - (k + i)) = e := h (k + i) a ha'
  rw [List.length_drop]
  unfold TickId at *
  omega

lemma inv_push_internal {T : Type} (q : Queue T) (v : T) (h : Inv q) :
    Inv (q.push_internal v) := by
  intro i a ha
  simp only [Queue.push_internal, List.length_append, List.length_cons,
    List.length_nil] at ha ⊢
  rcases Nat.lt_or_ge i q.items.length with hi | hi
  · rw [List.getElem?_append_left hi] at ha
    have hq := h i a ha
    unfold TickId at *
    omega
  · rw [List.getElem?_append_right hi] at ha
    rcases Nat.lt_or_ge (i - q.items.length) 1 with h1 | h1
    · have h0 : i - q.items.length = 0 := by omega
      rw [h0] at ha
      simp only [List.getElem?_cons_zero, Option.some.injEq] at ha
      subst ha
      show q.expected_write_id + (q.items.length + 1 - i) = q.expected_write_id + 1
      unfold TickId at *
      omega
    · rw [List.getElem?_eq_none (by simpa using h1)] at ha
      exact absurd ha (by simp)

lemma inv_push {T : Type} (q : Queue T) (t : TickId) (v : T) (h : Inv q) :
    Inv (q.push t v).2 := by
  unfold Queue.push
  by_cases hc : q.expected_write_id ≠ t
  · simpa [hc] using h
  · simpa [hc] using inv_push_internal q v h

lemma inv_pop {T : Type} (q : Queue T) (h : Inv q) : Inv q.pop.2 := by
  obtain ⟨l, e⟩ := q
  cases l with
  | nil => exact h
  | cons x rest => exact inv_drop 1 h

lemma inv_take {T : Type} (q : Queue T) (n : Nat) (h : Inv q) :
    Inv (q.take n).2 := by
  obtain ⟨l, e⟩ := q
  cases l with
  | nil => exact h
  | cons x rest => exact inv_drop _ h

lemma discardUpToList_eq_drop {T : Type} (l : List (ItemInfo T)) (t : TickId) :
    ∃ k, discardUpToList l t = l.drop k := by
  induction l with
  | nil => exact ⟨0, rfl⟩
  | cons x rest ih =>
    by_cases hx : x.tick_id ≥ t
    · exact ⟨0, by simp [discardUpToList, hx]⟩
    · obtain ⟨k, hk⟩ := ih
      exact ⟨k + 1, by simp [discardUpToList, hx, hk]⟩

lemma inv_discard_up_to {T : Type} (q : Queue T) (t : TickId) (h : Inv q) :
    Inv (q.discard_up_to t) := by
  obtain ⟨l, e⟩ := q
  obtain ⟨k, hk⟩ := discardUpToList_eq_drop l t
  unfold Queue.discard_up_to
  simp only at hk ⊢
  rw [hk]
  exact inv_drop k h

lemma inv_discard_count {T : Type} (q : Queue T) (n : Nat) (h : Inv q) :
    Inv (q.discard_count n) := by
  obtain ⟨l, e⟩ := q
  unfold Queue.discard_count
  by_cases hc : n ≥ l.length
  · simp only [hc, if_pos]
    exact inv_nil e
  · simp only [hc, if_neg, not_false_iff]
    exact inv_drop n h

lemma reachable_inv {T : Type} {q : Queue T} (h : Reachable q) : Inv q := by
  induction h with
  | new t => exact inv_nil t
  | defaultQueue => exact inv_nil 0
  | push t v _ ih => exact inv_push _ t v ih
  | pop _ ih => exact inv_pop _ ih
  | take n _ ih => exact inv_take _ n ih
  | discard_up_to t _ ih => exact inv_discard_up_to _ t ih
  | discard_count n _ ih => exact inv_discard_count _ n ih
  | clear t _ _ => exact inv_nil t

lemma inv_consecutive {T : Type} {q : Queue T} (h : Inv q) :
    ∀ i a b, q.items[i]? = some a → q.items[i + 1]? = some b →
      b.tick_id = a.tick_id + 1 := by
  intro i a b ha hb
  have h1 := h i a ha
  have h2 := h (i + 1) b hb
  have hlt : i + 1 < q.items.length := (List.getElem?_eq_some_iff.mp hb).1
  unfold TickId at *
  omega

lemma inv_back {T : Type} {q : Queue T} (h : Inv q) :
    ∀ b, q.back_tick_id = some b → q.expected_write_id = b + 1 := by
  intro b hb
  unfold Queue.back_tick_id at hb
  rw [List.getLast?_eq_getElem?] at hb
  cases hx : q.items[q.items.length - 1]? with
  | none => rw [hx] at hb; simp at hb
  | some a =>
    rw [hx] at hb
    simp at hb
    have he := h _ a hx
    have hlt : q.items.length - 1 < q.items.length :=
      (List.getElem?_eq_some_iff.mp hx).1
    unfold TickId at *
    omega

lemma inv_sorted {T : Type} {q : Queue T} (h : Inv q) :
    ∀ (i j : Nat) (a b : ItemInfo T), i < j →
      q.items[i]? = some a → q.items[j]? = some b →
      a.tick_id < b.tick_id := by
  intro i j a b hij ha hb
  have h1 := h i a ha
  have h2 := h j b hb
  have hlt : j < q.items.length := (List.getElem?_eq_some_iff.mp hb).1
  unfold TickId at *
  omega

lemma inv_pairwise {T : Type} {q : Queue T} (h : Inv q) :
    q.items.Pairwise (fun a b => a.tick_id < b.tick_id) := by
  rw [List.pairwise_iff_get]
  intro i j hij
  have ha : q.items[i.1]? = some (q.items.get i) := by
    rw [List.get_eq_getElem]
    exact List.getElem?_eq_some_iff.mpr ⟨i.2, rfl⟩
  have hb : q.items[j.1]? = some (q.items.get j) := by
    rw [List.get_eq_getElem]
    exact List.getElem?_eq_some_iff.mpr ⟨j.2, rfl⟩
  exact inv_sorted h i.1 j.1 _ _ hij ha hb

lemma discardUpToList_mem_ge {T : Type} {l : List (ItemInfo T)} {t : TickId}
    (hs : l.Pairwise (fun a b => a.tick_id < b.tick_id)) :
    ∀ e ∈ discardUpToList l t, t ≤ e.tick_id := by
  induction l with
  | nil => intro e he; simp [discardUpToList] at he
  | cons x rest ih =>
    intro e he
    rw [List.pairwise_cons] at hs
    by_cases hx : x.tick_id ≥ t
    · simp only [discardUpToList, if_pos hx] at he
      rcases List.mem_cons.mp he with he | he
      · subst he; exact hx
      · have := hs.1 e he
        unfold TickId at *
        omega
    · simp only [discardUpToList, if_neg hx] at he
      exact ih hs.2 e he

lemma discardUpToList_mem_of_ge {T : Type} {l : List (ItemInfo T)} {t : TickId} :
    ∀ e ∈ l, t ≤ e.tick_id → e ∈ discardUpToList l t := by
  induction l with
  | nil => intro e he; simp at he
  | cons x rest ih =>
    intro e he hte
    by_cases hx : x.tick_id ≥ t
    · simpa only [discardUpToList, if_pos hx] using he
    · simp only [discardUpToList, if_neg hx]
      rcases List.mem_cons.mp he with he | he
      · subst he; exact absurd hte hx
      · exact ih e he hte

lemma discardUpToList_idem {T : Type} (l : List (ItemInfo T)) (t t' : TickId)
    (h : t' ≤ t) :
    discardUpToList (discardUpToList l t) t' = discardUpToList l t := by
  induction l with
  | nil => rfl
  | cons x rest ih =>
    by_cases hx : x.tick_id ≥ t
    · have hx' : x.tick_id ≥ t' := le_trans h hx
      simp only [discardUpToList, if_pos hx, if_pos hx']
    · simp only [discardUpToList, if_neg hx]
      exact ih

lemma popN_eq {T : Type} (k : Nat) :
    ∀ q : Queue T,
      Queue.popN k q = (q.items.take k, ⟨q.items.drop k, q.expected_write_id⟩) := by
  induction k with
  | zero => intro q; rfl
  | succ k ih =>
    intro q
    obtain ⟨l, e⟩ := q
    cases l with
    | nil => rfl
    | cons x rest =>
      simp only [Queue.popN, Queue.pop, ih ⟨rest, e⟩, List.take_succ_cons,
        List.drop_succ_cons]

lemma collectFuel_eq_drop {T : Type} :
    ∀ (fuel : Nat) (it : FromIndexIterator T),
      it.deque.length - it.current_index ≤ fuel →
      FromIndexIterator.collectFuel fuel it = it.deque.drop it.current_index := by
  intro fuel
  induction fuel with
  | zero =>
    intro it h
    exact (List.drop_eq_nil_iff.mpr (by omega)).symm
  | succ fuel ih =>
    intro it h
    obtain ⟨d, s, c⟩ := it
    by_cases hc : c < d.length
    · have hx : d[c]? = some d[c] := List.getElem?_eq_some_iff.mpr ⟨hc, rfl⟩
      simp only [FromIndexIterator.collectFuel, FromIndexIterator.next, hx]
      rw [ih ⟨d, s, c + 1⟩ (by
        have h' : d.length - c ≤ fuel + 1 := h
        show d.length - (c + 1) ≤ fuel
        omega)]
      exact (List.drop_eq_getElem_cons hc).symm
    · have hx : d[c]? = none := List.getElem?_eq_none (by omega)
      simp only [FromIndexIterator.collectFuel, FromIndexIterator.next, hx]
      exact (List.drop_eq_nil_iff.mpr (by omega)).symm

/-- C1: every queue reachable from `new`/default construction by public
operations stores entries sorted strictly ascending by tick with step exactly
1 between consecutive entries (no gaps, no duplicates), and when non-empty its
`expected_write_id` equals the back entry's tick plus 1. -/
theorem reachable_invariant {T : Type} (q : Queue T) (h : Reachable q) :
    (∀ i a b, q.items[i]? = some a → q.items[i + 1]? = some b →
        b.tick_id = a.tick_id + 1)
    ∧ (∀ b, q.back_tick_id = some b → q.expected_write_id = b + 1) :=
  ⟨inv_consecutive (reachable_inv h), inv_back (reachable_inv h)⟩

/-- Witness for C1: instantiated on the concrete reachable queue `q3` (ticks
0, 1, 2); its back tick is 2 and its expected next tick is 3. -/
theorem reachable_invariant_witness : q3.expected_write_id = 2 + 1 :=
  (reachable_invariant q3 q3_reachable).2 2 (by decide)

/-- C2: `push t v` fails with `WrongTickId` carrying `expected_write_id` and
`t` exactly when `t` differs from `expected_write_id`, and on failure the
queue is unchanged (hence its length and expected tick are unchanged). -/
theorem push_rejection {T : Type} (q : Queue T) (t : TickId) (v : T) :
    ((q.push t v).1 =
        Except.error (QueueError.WrongTickId q.expected_write_id t)
      ↔ t ≠ q.expected_write_id)
    ∧ (t ≠ q.expected_write_id → (q.push t v).2 = q) := by
  by_cases h : q.expected_write_id ≠ t
  · have hp : q.push t v =
        (Except.error (QueueError.WrongTickId q.expected_write_id t), q) := by
      unfold Queue.push
      rw [if_pos h]
    rw [hp]
    exact ⟨⟨fun _ => Ne.symm h, fun _ => rfl⟩, fun _ => rfl⟩
  · have hp : q.push t v = (Except.ok (), q.push_internal v) := by
      unfold Queue.push
      rw [if_neg h]
    rw [hp]
    push_neg at h
    refine ⟨⟨fun hc => ?_, fun hc => absurd h.symm hc⟩,
      fun hc => absurd h.symm hc⟩
    simp at hc

/-- Witness for C2: pushing tick 1 into a fresh queue expecting tick 0 leaves
the queue unchanged and returns the `WrongTickId` error. -/
theorem push_rejection_witness :
    ((Queue.new 0 : Queue Nat).push 1 5).1 =
        Except.error (QueueError.WrongTickId (Queue.new 0 : Queue Nat).expected_write_id 1)
    ∧ ((Queue.new 0 : Queue Nat).push 1 5).2 = Queue.new 0 :=
  ⟨(push_rejection (Queue.new 0) 1 5).1.mpr (by decide),
   (push_rejection (Queue.new 0) 1 5).2 (by decide)⟩

/-- C3: when `t` equals `expected_write_id`, `push t v` returns `Ok`, appends
the entry `⟨v, t⟩` at the back (leaving all previously stored entries
unchanged), sets `expected_write_id` to `t + 1`, and grows the length by 1. -/
theorem push_success {T : Type} (q : Queue T) (t : TickId) (v : T)
    (h : t = q.expected_write_id) :
    (q.push t v).1 = Except.ok ()
    ∧ (q.push t v).2.items = q.items ++ [⟨v, t⟩]
    ∧ (q.push t v).2.expected_write_id = t + 1
    ∧ (q.push t v).2.len = q.len + 1 := by
  subst h
  simp [Queue.push, Queue.push_internal, Queue.len]

/-- Witness for C3: pushing tick 23 into a fresh queue expecting tick 23
appends the entry and advances the expected tick to 24. -/
theorem push_success_witness :
    ((Queue.new 23 : Queue Nat).push 23 7).1 = Except.ok ()
    ∧ ((Queue.new 23 : Queue Nat).push 23 7).2.items =
        (Queue.new 23 : Queue Nat).items ++ [⟨7, 23⟩]
    ∧ ((Queue.new 23 : Queue Nat).push 23 7).2.expected_write_id = 23 + 1
    ∧ ((Queue.new 23 : Queue Nat).push 23 7).2.len = (Queue.new 23 : Queue Nat).len + 1 :=
  push_success (Queue.new 23) 23 7 (by decide)

/-- C4: on any reachable queue, `pop` removes and returns the front entry,
which carries the lowest currently-stored tick (every stored entry's tick is
at least the popped one, and every entry left behind has a strictly larger
tick, so repeated pops drain front-to-back in strictly ascending tick order);
it returns nothing exactly when the queue is empty. -/
theorem pop_front_min {T : Type} (q : Queue T) (h : Reachable q) :
    q.pop.1 = q.items.head?
    ∧ q.pop.2.items = q.items.tail
    ∧ (q.pop.1 = none ↔ q.items = [])
    ∧ (∀ f, q.pop.1 = some f → ∀ e ∈ q.items, f.tick_id ≤ e.tick_id)
    ∧ (∀ f, q.pop.1 = some f → ∀ e ∈ q.pop.2.items, f.tick_id < e.tick_id) := by
  have hinv := reachable_inv h
  obtain ⟨l, w⟩ := q
  cases l with
  | nil => exact ⟨rfl, rfl, by simp [Queue.pop], by simp [Queue.pop], by simp [Queue.pop]⟩
  | cons x rest =>
    have hstrict : ∀ e ∈ rest, x.tick_id < e.tick_id := by
      intro e he
      obtain ⟨j, hj⟩ := List.mem_iff_getElem?.mp he
      exact inv_sorted hinv 0 (j + 1) x e (by omega) (by simp) (by simpa using hj)
    refine ⟨rfl, rfl, by simp [Queue.pop], ?_, ?_⟩
    · intro f hf e he
      have hfx : x = f := by simpa [Queue.pop] using hf
      rw [← hfx]
      rcases List.mem_cons.mp he with he | he
      · rw [he]
      · exact le_of_lt (hstrict e he)
    · intro f hf e he
      have hfx : x = f := by simpa [Queue.pop] using hf
      rw [← hfx]
      exact hstrict e (by simpa [Queue.pop] using he)

/-- Witness for C4: instantiated on the concrete reachable queue `q3`; pop
returns the front entry and leaves the tail. -/
theorem pop_front_min_witness :
    q3.pop.1 = q3.items.head? ∧ q3.pop.2.items = q3.items.tail :=
  ⟨(pop_front_min q3 q3_reachable).1, (pop_front_min q3 q3_reachable).2.1⟩

/-- C5: for `k ≤ len`, `take k` is observationally equivalent to popping `k`
times: same final queue, the returned values are exactly the popped entries'
items in order, the returned tick is the first popped entry's tick (when at
least one entry is removed), and `take` returns nothing iff the queue was
already empty. -/
theorem take_pop_equiv {T : Type} (q : Queue T) (k : Nat) (h : k ≤ q.len) :
    (q.take k).2 = (Queue.popN k q).2
    ∧ (∀ tk vs, (q.take k).1 = some (tk, vs) →
        vs = (Queue.popN k q).1.map (fun info => info.item))
    ∧ ((q.take k).1 = none ↔ q.items = [])
    ∧ (∀ tk vs, (q.take k).1 = some (tk, vs) → 1 ≤ k →
        ((Queue.popN k q).1.head?.map (fun info => info.tick_id)) = some tk) := by
  rw [popN_eq]
  obtain ⟨l, e⟩ := q
  cases l with
  | nil =>
    refine ⟨by simp [Queue.take, Queue.front_tick_id], ?_, by simp [Queue.take, Queue.front_tick_id], ?_⟩
    · intro tk vs hc
      exact absurd hc (by simp [Queue.take, Queue.front_tick_id])
    · intro tk vs hc
      exact absurd hc (by simp [Queue.take, Queue.front_tick_id])
  | cons x rest =>
    have hlen : k ≤ rest.length + 1 := h
    have hmin : min k (x :: rest).length = k := by
      simp only [List.length_cons]
      omega
    have ht : (Queue.take ⟨x :: rest, e⟩ k) =
        (some (x.tick_id, ((x :: rest).take k).map (fun info => info.item)),
         ⟨(x :: rest).drop k, e⟩) := by
      simp only [Queue.take, Queue.front_tick_id, List.head?_cons,
        Option.map_some', hmin]
    rw [ht]
    refine ⟨rfl, ?_, by simp, ?_⟩
    · intro tk vs hc
      simp only [Option.some.injEq, Prod.mk.injEq] at hc
      exact hc.2.symm
    · intro tk vs hc hk
      simp only [Option.some.injEq, Prod.mk.injEq] at hc
      cases k with
      | zero => omega
      | succ k => simp [← hc.1]

/-- Witness for C5: on the concrete queue `q3`, taking 2 entries leaves the
same final state as popping twice. -/
theorem take_pop_equiv_witness :
    (q3.take 2).2 = (Queue.popN 2 q3).2 :=
  (take_pop_equiv q3 2 (by decide)).1

/-- C6: on any reachable queue, `discard_up_to t` removes exactly the front
entries with tick below `t`: every remaining entry has tick at least `t`,
every entry with tick at least `t` is retained, every removed entry had tick
below `t`, and a second call with the same or a smaller bound is a no-op. -/
theorem discard_up_to_exact {T : Type} (q : Queue T) (t : TickId)
    (h : Reachable q) :
    (∀ e ∈ (q.discard_up_to t).items, t ≤ e.tick_id)
    ∧ (∀ e ∈ q.items, t ≤ e.tick_id → e ∈ (q.discard_up_to t).items)
    ∧ (∀ e ∈ q.items, e ∉ (q.discard_up_to t).items → e.tick_id < t)
    ∧ (∀ t', t' ≤ t → (q.discard_up_to t).discard_up_to t' = q.discard_up_to t) := by
  have hp : q.items.Pairwise (fun a b => a.tick_id < b.tick_id) :=
    inv_pairwise (reachable_inv h)
  refine ⟨discardUpToList_mem_ge hp, fun e he hte => discardUpToList_mem_of_ge e he hte,
    ?_, ?_⟩
  · intro e he hne
    by_contra hge
    push_neg at hge
    exact hne (discardUpToList_mem_of_ge e he hge)
  · intro t' ht'
    show (⟨discardUpToList (discardUpToList q.items t) t', q.expected_write_id⟩ :
        Queue T) = ⟨discardUpToList q.items t, q.expected_write_id⟩
    rw [discardUpToList_idem q.items t t' ht']

/-- Witness for C6: on the concrete queue `q3`, discarding up to tick 1
twice equals discarding once. -/
theorem discard_up_to_exact_witness :
    (q3.discard_up_to 1).discard_up_to 1 = q3.discard_up_to 1 :=
  (discard_up_to_exact q3 1 q3_reachable).2.2.2 1 (le_refl 1)

/-- C7: `discard_count count` removes exactly `min count len` entries from the
front — the remaining entries are the original list with its first `count`
entries dropped — and when `count ≥ len` the queue becomes empty; the
operation is total (no error case exists). -/
theorem discard_count_exact {T : Type} (q : Queue T) (count : Nat) :
    (q.discard_count count).items = q.items.drop count
    ∧ (q.discard_count count).len + min count q.len = q.len
    ∧ (q.len ≤ count → (q.discard_count count).items = []) := by
  unfold Queue.discard_count Queue.len
  by_cases h : count ≥ q.items.length
  · rw [if_pos h]
    refine ⟨(List.drop_eq_nil_iff.mpr h).symm, ?_, fun _ => rfl⟩
    show [].length + min count q.items.length = q.items.length
    simp only [List.length_nil, Nat.zero_add]
    omega
  · rw [if_neg h]
    push_neg at h
    refine ⟨rfl, ?_, fun hc => absurd hc (by omega)⟩
    show (q.items.drop count).length + min count q.items.length = q.items.length
    rw [List.length_drop]
    omega

/-- Witness for C7: on the concrete queue `q3` (length 3), discarding 8
entries empties the queue. -/
theorem discard_count_exact_witness : (q3.discard_count 8).items = [] :=
  (discard_count_exact q3 8).2.2 (by decide)

/-- C8: none of the consuming operations `pop`, `take`, `discard_up_to`,
`discard_count` changes `expected_write_id`, so future pushes continue the
original tick sequence even if these operations empty the queue. -/
theorem consuming_ops_preserve_expected {T : Type} (q : Queue T) (n : Nat)
    (t : TickId) :
    q.pop.2.expected_write_id = q.expected_write_id
    ∧ (q.take n).2.expected_write_id = q.expected_write_id
    ∧ (q.discard_up_to t).expected_write_id = q.expected_write_id
    ∧ (q.discard_count n).expected_write_id = q.expected_write_id := by
  obtain ⟨l, e⟩ := q
  refine ⟨?_, ?_, rfl, ?_⟩
  · cases l <;> rfl
  · cases l <;> rfl
  · unfold Queue.discard_count
    by_cases h : n ≥ l.length
    · rw [if_pos h]
    · rw [if_neg h]

/-- C9: the iterator returned by `iter_index start` yields exactly the entries
at positions `start, start + 1, …` in front-to-back order (the suffix of the
stored list from `start`), yields nothing as soon as the current index is at
or beyond the end — in particular an out-of-bounds `start` yields nothing —
and stepping the iterator never mutates the underlying deque. -/
theorem iter_index_yields_suffix {T : Type} (q : Queue T) (start_index : Nat) :
    (q.iter_index start_index).collect = q.items.drop start_index
    ∧ (q.items.length ≤ start_index → (q.iter_index start_index).collect = [])
    ∧ (∀ it : FromIndexIterator T, (it.next).2.deque = it.deque) := by
  have h1 : (q.iter_index start_index).collect = q.items.drop start_index := by
    unfold FromIndexIterator.collect Queue.iter_index FromIndexIterator.new
    exact collectFuel_eq_drop _ _ (le_refl _)
  refine ⟨h1, fun h => by rw [h1]; exact List.drop_eq_nil_iff.mpr h, ?_⟩
  intro it
  obtain ⟨d, s, c⟩ := it
  unfold FromIndexIterator.next
  cases hx : d[c]? <;> simp [hx]

/-- Witness for C9: on the concrete queue `q3` (entries at ticks 0, 1, 2),
iterating from index 1 yields the second and third entries, and iterating
from the out-of-bounds index 10 yields nothing. -/
theorem iter_index_yields_suffix_witness :
    (q3.iter_index 1).collect = q3.items.drop 1
    ∧ (q3.iter_index 10).collect = [] :=
  ⟨(iter_index_yields_suffix q3 1).1,
   (iter_index_yields_suffix q3 10).2.1 (by decide)⟩

/-- C10: on a non-empty queue, `take 0` returns the front entry's tick paired
with no values and leaves the queue completely unchanged. -/
theorem take_zero_nonempty {T : Type} (q : Queue T) (h : q.items ≠ []) :
    (q.take 0).1 = q.front_tick_id.map (fun ft => (ft, ([] : List T)))
    ∧ (q.take 0).1.isSome = true
    ∧ (q.take 0).2 = q := by
  obtain ⟨l, e⟩ := q
  cases l with
  | nil => exact absurd rfl h
  | cons x rest =>
    refine ⟨?_, ?_, ?_⟩ <;>
      simp [Queue.take, Queue.front_tick_id]

/-- Witness for C10: on the concrete non-empty queue `q3`, `take 0` leaves the
queue unchanged. -/
theorem take_zero_nonempty_witness : (q3.take 0).2 = q3 :=
  (take_zero_nonempty q3 (by decide)).2.2

end TickQueue
